import Mathlib

/-!
Verification development for the mymemory.c allocator (CloudyShawn/malloc).

The allocator state is embedded shallowly:

* a free-list node (struct header with link field pointing into the free
  chain) is a pair (addr, size); the free list itself, a singly linked
  chain rooted at head_list->head, is a Lean list in link order (the head
  of the Lean list is head_list->head, the successor of an element is its
  next pointer);
* headers whose link field equals the in-use marker used_head (those
  belonging to allocated blocks) are collected in a second list usedL:
  membership in usedL is the model of (the header one header-size before
  the payload pointer) .next == used_head;
* sizes and addresses are byte counts as natural numbers; the constants
  below fix the LP64 Linux layout the source is compiled against:
  sizeof(struct header) = 16 (unsigned int + padding + pointer) and
  sizeof(struct free_list) = 48 (pointer + pthread_mutex_t); the size
  parameter of mymalloc is a 32-bit unsigned int, and the request
  rounding of line 128 therefore wraps modulo UINT_MOD = 2 ^ 32, which
  the roundUp definition reproduces;
* sbrk outcomes are an explicit stream of Booleans, and the unbounded
  retry loop inside mymalloc is given explicit fuel (the loop terminates
  in the source whenever sbrk eventually fails or grants enough memory;
  exhausted fuel returns NULL with the state reached so far);
* heap_head, the base address returned by the initial sbrk, is a fixed
  page-aligned address.

Memory contents outside the headers written by the allocator (user
payload bytes, the bytes of the mutex) are not modelled; a link-field
read at an address holding no allocator-written header is treated as
differing from the in-use marker, which matches every state the
allocator itself can produce.
-/

namespace MyMemory

/-- BYTE_BOUNDARY, mymemory.c line 42. -/
def BYTE_BOUNDARY : Nat := 8

/-- Modulus of the 32-bit unsigned int type of the size parameter and the
arithmetic of line 128. -/
def UINT_MOD : Nat := 4294967296

/-- PAGE_SIZE, mymemory.c line 43. -/
def PAGE_SIZE : Nat := 4096

/-- sizeof(struct header) (line 46): unsigned int size (4 bytes), padding
(4 bytes), struct header pointer (8 bytes) on LP64. -/
def header_size : Nat := 16

/-- sizeof(struct free_list) (line 53): header pointer (8 bytes) plus
pthread_mutex_t (40 bytes) on LP64 Linux. -/
def free_list_size : Nat := 48

/-- The base address returned by the initial sbrk(PAGE_SIZE) call in
mymalloc_init (line 87), modelled as a fixed page-aligned address. -/
def heap_head : Nat := 4096

/-- Byte count of a list of blocks (sum of the size fields). -/
def sumB : List (Nat × Nat) → Nat
  | [] => 0
  | b :: r => b.2 + sumB r

/-- Byte count of a list of blocks including one header per block. -/
def sLen (l : List (Nat × Nat)) : Nat := sumB l + header_size * l.length

/-- coalescing, lines 207..214: given a node of the free list (the head of
the argument), merge it with its successor when the end of its payload is
exactly the address of that successor; the successor is then unlinked and
its size plus one header is absorbed. -/
def coalescing : List (Nat × Nat) → List (Nat × Nat)
  | x :: y :: rest =>
    if x.1 + x.2 + header_size = y.1 then (x.1, x.2 + y.2 + header_size) :: rest
    else x :: y :: rest
  | l => l

/-- The walk of insert_free_space, lines 236..249: temp_head starts at the
list head and advances while its successor exists and has an address below
the block being inserted; the block is spliced after temp_head, then
coalescing runs on the spliced node and on temp_head, in that order.
The source leaves old_space->next unassigned when the splice lands at the
very tail (line 240); in every state the allocator can reach, the free
list always holds a block above every allocated header (the end-of-heap
remainder), so that branch is never taken with a stale link. -/
def insert_walk (blk : Nat × Nat) : List (Nat × Nat) → List (Nat × Nat)
  | [] => [blk]
  | [h] => coalescing (h :: [blk])
  | h :: h2 :: rest =>
    if h2.1 < blk.1 then h :: insert_walk blk (h2 :: rest)
    else coalescing (h :: coalescing (blk :: h2 :: rest))

/-- insert_free_space, lines 220..251: a block below the current head
becomes the new head and is coalesced with it; otherwise the sorted walk
splices it in. (The head == NULL case would dereference NULL in the
source; the free list is never empty after init.) -/
def insert_free_space (blk : Nat × Nat) (l : List (Nat × Nat)) : List (Nat × Nat) :=
  match l with
  | [] => [blk]
  | h :: rest => if blk.1 < h.1 then coalescing (blk :: h :: rest) else insert_walk blk (h :: rest)

/-- find_free_space, lines 259..271: linear scan of the free list from the
head, returning the first node whose size is at least the request plus one
header. -/
def find_free_space (size : Nat) (l : List (Nat × Nat)) : Option (Nat × Nat) :=
  l.find? (fun b => decide (size + header_size ≤ b.2))

/-- shrink_free, lines 279..317. The node free_space is located in the
chain (the source compares header pointers; here pointer identity is the
first list position carrying the pair). Its header becomes the allocated
header (size := request; the caller links it as used), and a fresh header
one request plus one header beyond it receives the remainder size and the
old link, taking over the list position (new head when free_space was the
head, predecessor successor otherwise). Returns (allocated header,
updated free list). -/
def shrink_free (l : List (Nat × Nat)) (t : Nat × Nat) (size : Nat) :
    (Nat × Nat) × List (Nat × Nat) :=
  match l with
  | [] => ((t.1, size), [])
  | b :: rest =>
    if b = t then
      ((t.1, size), (t.1 + size + header_size, t.2 - size - header_size) :: rest)
    else
      let r := shrink_free rest t size
      (r.1, b :: r.2)

/-- Allocator state: the free list in link order, the headers currently
carrying the in-use marker, heap_size and expansion_counter (lines 72..75). -/
structure AllocState where
  freeL : List (Nat × Nat)
  usedL : List (Nat × Nat)
  heap_size : Nat
  expansion_counter : Nat
deriving DecidableEq, Repr

/-- The state established by a successful mymalloc_init (lines 84..110):
the free_list descriptor sits at heap_head, the single free header right
after it, spanning the rest of the first page. -/
def initState : AllocState :=
  { freeL := [(heap_head + free_list_size, PAGE_SIZE - header_size - free_list_size)]
    usedL := []
    heap_size := PAGE_SIZE
    expansion_counter := 1 }

/-- mymalloc_init, lines 84..110: 0 and the seeded state when sbrk grants
the first page, 1 when sbrk returns the failure sentinel. -/
def mymalloc_init (ok : Bool) : Nat × Option AllocState :=
  if ok then (0, some initState) else (1, none)

/-- The tail update of expand_heap, lines 336..343: walk the free list to
its last node and add the granted size to that node. -/
def add_last (sz : Nat) : List (Nat × Nat) → List (Nat × Nat)
  | [] => []
  | [b] => [(b.1, b.2 + sz)]
  | h :: rest => h :: add_last sz rest

/-- expand_heap, lines 325..348. The request is PAGE_SIZE times the
counter and the counter is post-incremented before the sbrk test (line
328), so it advances on failed calls too. On success the granted span is
absorbed into the last free-list node and heap_size grows; the granted
size is returned (0 signals failure). The ok flag is the sbrk outcome. -/
def expand_heap (ok : Bool) (s : AllocState) : Nat × AllocState :=
  let sz := PAGE_SIZE * s.expansion_counter
  let s1 := { s with expansion_counter := s.expansion_counter + 1 }
  if ok then
    (sz, { s1 with freeL := add_last sz s1.freeL, heap_size := s1.heap_size + sz })
  else (0, s1)

/-- Rounding of the request in mymalloc, lines 126..129. The size
parameter is an unsigned int, so the sum of line 128 wraps at UINT_MOD:
for size in the open interval from UINT_MOD - BYTE_BOUNDARY to UINT_MOD
the rounded request wraps to 0 (the subtraction of size % BYTE_BOUNDARY
never wraps further, since the wrapped sum is then at least that
remainder). -/
def roundUp (size : Nat) : Nat :=
  if size % BYTE_BOUNDARY ≠ 0 then
    (size + BYTE_BOUNDARY - size % BYTE_BOUNDARY) % UINT_MOD
  else size

/-- The while(1) retry loop of mymalloc, lines 135..162: search, split on
success (the returned pointer is one header past the allocated header,
whose link is set to used_head, modelled by consing it onto usedL);
otherwise expand and retry, or give up when sbrk refuses. os is the
stream of sbrk outcomes, fuel bounds the iterations. -/
def mymalloc_loop (size : Nat) : Nat → List Bool → AllocState → Option Nat × AllocState
  | 0, _, s => (none, s)
  | fuel + 1, os, s =>
    match find_free_space size s.freeL with
    | some b =>
      let r := shrink_free s.freeL b size
      (some (b.1 + header_size), { s with freeL := r.2, usedL := r.1 :: s.usedL })
    | none =>
      let e := expand_heap (os.headD false) s
      if e.1 = 0 then (none, e.2)
      else mymalloc_loop size fuel os.tail e.2

/-- mymalloc, lines 117..163: zero requests are rejected, the request is
rounded up to the byte boundary, then the retry loop runs. -/
def mymalloc (fuel : Nat) (os : List Bool) (size : Nat) (s : AllocState) :
    Option Nat × AllocState :=
  if size = 0 then (none, s) else mymalloc_loop (roundUp size) fuel os s

/-- Removal of the first occurrence of a header from usedL (the freed
header stops carrying the in-use marker once insert_free_space relinks
it). -/
def removeBlock (t : Nat × Nat) : List (Nat × Nat) → List (Nat × Nat)
  | [] => []
  | b :: r => if b = t then r else b :: removeBlock t r

/-- myfree, lines 170..197. The bounds test is the literal one of line
172: fail when ptr is below heap_head or above heap_head + heap_size - 8.
Then the header one header-size before ptr must carry the in-use marker
(line 181), i.e. be present in usedL; otherwise 1 is returned with the
state untouched. On success the header is handed to insert_free_space. -/
def myfree (p : Nat) (s : AllocState) : Nat × AllocState :=
  if p < heap_head then (1, s)
  else if heap_head + s.heap_size - 8 < p then (1, s)
  else
    match s.usedL.find? (fun b => decide (b.1 + header_size = p)) with
    | some b =>
      (0, { s with usedL := removeBlock b s.usedL, freeL := insert_free_space b s.freeL })
    | none => (1, s)

/-- States reachable from a successful init by any sequence of mymalloc
and myfree calls, with arbitrary sbrk outcomes. -/
inductive Reachable : AllocState → Prop
  | init : Reachable initState
  | step_malloc (fuel : Nat) (os : List Bool) (size : Nat) (s : AllocState) :
      Reachable s → Reachable (mymalloc fuel os size s).2
  | step_free (p : Nat) (s : AllocState) :
      Reachable s → Reachable (myfree p s).2

/-- Geometry of a single block: header at or above the first header slot,
address and size on the byte boundary, payload ending inside the heap. -/
def blockOk (hs : Nat) (b : Nat × Nat) : Prop :=
  heap_head + free_list_size ≤ b.1 ∧ b.1 % BYTE_BOUNDARY = 0 ∧
  b.2 % BYTE_BOUNDARY = 0 ∧ b.1 + header_size + b.2 ≤ heap_head + hs

/-- Quiescent-state invariant: the free list is never empty, every block
is geometrically sound, every allocated block leaves room for one more
header before the heap end (its donor free block extended at least one
header past it), and all block bytes plus one header per block plus the
free_list descriptor account exactly for the heap. -/
structure Inv (s : AllocState) : Prop where
  ne : s.freeL ≠ []
  freeOk : ∀ b ∈ s.freeL, blockOk s.heap_size b
  usedOk : ∀ b ∈ s.usedL, blockOk s.heap_size b ∧
    b.1 + header_size + b.2 + header_size ≤ heap_head + s.heap_size
  conserve : sLen s.freeL + sLen s.usedL + free_list_size = s.heap_size

/-- Validation predicate transcribed from the specification sentence of
claim C3 (spec section 4.3): the pointer fails exactly when it lies
outside the half-open interval from heap_base to heap_base + heap_size,
or the header one header-size before it does not carry the in-use
marker. -/
def claimed_free_check (s : AllocState) (p : Nat) : Bool :=
  decide (p < heap_head) || decide (heap_head + s.heap_size ≤ p) ||
  (s.usedL.find? (fun b => decide (b.1 + header_size = p))).isNone

/-- Shared mutable allocator locations named by the concurrency claim:
the free-list head, header size and link fields, heap_size and
expansion_counter. -/
inductive SLoc
  | freeHead
  | headerFld
  | heapSz
  | expCounter
deriving DecidableEq, Repr

/-- Atomic actions on shared state: reads, writes, and the pthread mutex
lock and unlock calls. -/
inductive MAct
  | rd (l : SLoc)
  | wr (l : SLoc)
  | lock
  | unlock
deriving DecidableEq, Repr

/-- Shared-state accesses of myfree on its success path, in source order:
line 172 reads heap_size for the bounds test, line 181 reads the header
link field for the marker test, line 187 takes the lock, then
insert_free_space reads the list head and reads and writes links (lines
220..251, possibly writing the head), line 193 unlocks. -/
def myfree_actions : List MAct :=
  [MAct.rd SLoc.heapSz, MAct.rd SLoc.headerFld, MAct.lock,
   MAct.rd SLoc.freeHead, MAct.rd SLoc.headerFld, MAct.wr SLoc.headerFld,
   MAct.wr SLoc.freeHead, MAct.unlock]

/-- Shared-state accesses of mymalloc on a path with one expansion then a
successful split, in source order: line 132 locks before any shared
access; find_free_space reads the head and links; expand_heap reads and
writes the counter, walks links, writes the tail size and heap_size;
shrink_free writes links and sizes and possibly the head; line 145
unlocks. -/
def mymalloc_actions : List MAct :=
  [MAct.lock, MAct.rd SLoc.freeHead, MAct.rd SLoc.headerFld,
   MAct.rd SLoc.expCounter, MAct.wr SLoc.expCounter, MAct.rd SLoc.headerFld,
   MAct.wr SLoc.headerFld, MAct.wr SLoc.heapSz, MAct.rd SLoc.freeHead,
   MAct.rd SLoc.headerFld, MAct.wr SLoc.headerFld, MAct.wr SLoc.freeHead,
   MAct.unlock]

/-- Every read and write of shared state happens while the lock depth is
positive. -/
def accessesLocked : Nat → List MAct → Bool
  | _, [] => true
  | d, MAct.lock :: r => accessesLocked (d + 1) r
  | d, MAct.unlock :: r => accessesLocked (d - 1) r
  | d, MAct.rd _ :: r => decide (0 < d) && accessesLocked d r
  | d, MAct.wr _ :: r => decide (0 < d) && accessesLocked d r

/-- Every write of shared state happens while the lock depth is
positive (reads are unconstrained). -/
def writesLocked : Nat → List MAct → Bool
  | _, [] => true
  | d, MAct.lock :: r => writesLocked (d + 1) r
  | d, MAct.unlock :: r => writesLocked (d - 1) r
  | d, MAct.rd _ :: r => writesLocked d r
  | d, MAct.wr _ :: r => decide (0 < d) && writesLocked d r

/-! Arithmetic facts about the rounding of requests. -/

theorem roundUp_mod (size : Nat) : roundUp size % BYTE_BOUNDARY = 0 := by
  simp only [roundUp, BYTE_BOUNDARY, UINT_MOD]
  split <;> omega

theorem roundUp_le_of_no_wrap {size : Nat} (h : size ≤ UINT_MOD - BYTE_BOUNDARY) :
    size ≤ roundUp size := by
  simp only [roundUp, BYTE_BOUNDARY, UINT_MOD] at *
  split <;> omega

/-! Behaviour of local coalescing. -/

theorem sLen_coalescing (l : List (Nat × Nat)) : sLen (coalescing l) = sLen l := by
  match l with
  | [] => rfl
  | [x] => rfl
  | x :: y :: rest =>
    simp only [coalescing]
    split
    · simp only [sLen, sumB, List.length_cons, header_size]
      omega
    · rfl

theorem coalescing_ne {l : List (Nat × Nat)} (h : l ≠ []) : coalescing l ≠ [] := by
  match l with
  | [] => exact absurd rfl h
  | [x] => simp [coalescing]
  | x :: y :: rest =>
    simp only [coalescing]
    split <;> simp

theorem blockOk_mono {hs hs2 : Nat} (h : hs ≤ hs2) {b : Nat × Nat} (hb : blockOk hs b) :
    blockOk hs2 b := by
  simp only [blockOk] at *
  omega

theorem blockOk_coalescing {hs : Nat} {l : List (Nat × Nat)}
    (h : ∀ b ∈ l, blockOk hs b) : ∀ b ∈ coalescing l, blockOk hs b := by
  match l with
  | [] => exact h
  | [x] => exact h
  | x :: y :: rest =>
    simp only [coalescing]
    split
    · rename_i htouch
      intro b hb
      rcases List.mem_cons.mp hb with rfl | hb2
      · have h1 := h x (by simp)
        have h2 := h y (by simp)
        simp only [blockOk, header_size, BYTE_BOUNDARY] at h1 h2 ⊢
        simp only [header_size] at htouch
        omega
      · exact h b (by simp [hb2])
    · exact h

theorem coalescing_cons_covers (x : Nat × Nat) (xs : List (Nat × Nat)) :
    ∃ c t, coalescing (x :: xs) = c :: t ∧
      c.1 ≤ x.1 ∧ x.1 + x.2 ≤ c.1 + c.2 ∧ x.2 ≤ c.2 := by
  match xs with
  | [] => exact ⟨x, [], rfl, le_refl _, le_refl _, le_refl _⟩
  | y :: rest =>
    simp only [coalescing]
    split
    · rename_i htouch
      exact ⟨(x.1, x.2 + y.2 + header_size), rest, rfl, le_refl _, by omega, by omega⟩
    · exact ⟨x, y :: rest, rfl, le_refl _, le_refl _, le_refl _⟩

/-! Behaviour of removal of a header from the marked set. -/

theorem removeBlock_sLen {t : Nat × Nat} :
    ∀ {l : List (Nat × Nat)}, t ∈ l →
      sLen (removeBlock t l) + t.2 + header_size = sLen l := by
  intro l hm
  induction l with
  | nil => cases hm
  | cons b rest ih =>
    simp only [removeBlock]
    split
    · rename_i heq
      simp only [sLen, sumB, List.length_cons, heq, header_size]
      omega
    · rename_i hne
      have hm2 : t ∈ rest := by
        rcases List.mem_cons.mp hm with h | h
        · exact absurd h.symm hne
        · exact h
      have := ih hm2
      simp only [sLen, sumB, List.length_cons, header_size] at *
      omega

theorem removeBlock_subset {t b : Nat × Nat} :
    ∀ {l : List (Nat × Nat)}, b ∈ removeBlock t l → b ∈ l := by
  intro l hm
  induction l with
  | nil => exact hm
  | cons x rest ih =>
    simp only [removeBlock] at hm
    split at hm
    · exact List.mem_cons_of_mem x hm
    · rcases List.mem_cons.mp hm with rfl | h
      · exact List.mem_cons_self _ _
      · exact List.mem_cons_of_mem x (ih h)

/-! Behaviour of sorted insertion with local coalescing. -/

theorem sLen_cons (b : Nat × Nat) (l : List (Nat × Nat)) :
    sLen (b :: l) = b.2 + header_size + sLen l := by
  simp only [sLen, sumB, List.length_cons]
  ring

theorem sLen_insert_walk (blk : Nat × Nat) :
    ∀ l : List (Nat × Nat), sLen (insert_walk blk l) = blk.2 + header_size + sLen l := by
  intro l
  induction l with
  | nil => simp only [insert_walk]; rw [sLen_cons]
  | cons h t ih =>
    cases t with
    | nil =>
      simp only [insert_walk]
      rw [sLen_coalescing, sLen_cons, sLen_cons, sLen_cons]
      omega
    | cons h2 rest =>
      simp only [insert_walk]
      split
      · simp only [sLen_cons, ih]
        omega
      · simp only [sLen_coalescing, sLen_cons]
        omega

theorem sLen_insert (blk : Nat × Nat) (l : List (Nat × Nat)) :
    sLen (insert_free_space blk l) = blk.2 + header_size + sLen l := by
  match l with
  | [] => simp only [insert_free_space]; rw [sLen_cons]
  | h :: rest =>
    simp only [insert_free_space]
    split
    · simp only [sLen_coalescing, sLen_cons]
      try omega
    · exact sLen_insert_walk blk (h :: rest)

theorem insert_walk_ne (blk : Nat × Nat) :
    ∀ l : List (Nat × Nat), insert_walk blk l ≠ [] := by
  intro l
  induction l with
  | nil => simp [insert_walk]
  | cons h t ih =>
    cases t with
    | nil => exact coalescing_ne (by simp)
    | cons h2 rest =>
      simp only [insert_walk]
      split
      · simp
      · exact coalescing_ne (by simp)

theorem insert_ne (blk : Nat × Nat) (l : List (Nat × Nat)) :
    insert_free_space blk l ≠ [] := by
  match l with
  | [] => simp [insert_free_space]
  | h :: rest =>
    simp only [insert_free_space]
    split
    · exact coalescing_ne (by simp)
    · exact insert_walk_ne blk (h :: rest)

theorem insert_walk_ok {hs : Nat} {blk : Nat × Nat} (hblk : blockOk hs blk) :
    ∀ {l : List (Nat × Nat)}, (∀ b ∈ l, blockOk hs b) →
      ∀ b ∈ insert_walk blk l, blockOk hs b := by
  intro l
  induction l with
  | nil =>
    intro _ b hb
    simp only [insert_walk, List.mem_singleton] at hb
    exact hb ▸ hblk
  | cons h t ih =>
    intro hl
    cases t with
    | nil =>
      refine blockOk_coalescing ?_
      intro b hb
      rcases List.mem_cons.mp hb with rfl | hb2
      · exact hl b (by simp)
      · simp only [List.mem_singleton] at hb2
        exact hb2 ▸ hblk
    | cons h2 rest =>
      simp only [insert_walk]
      split
      · intro b hb
        rcases List.mem_cons.mp hb with rfl | hb2
        · exact hl b (by simp)
        · exact ih (fun c hc => hl c (List.mem_cons_of_mem h hc)) b hb2
      · refine blockOk_coalescing ?_
        intro b hb
        rcases List.mem_cons.mp hb with rfl | hb2
        · exact hl b (by simp)
        · refine blockOk_coalescing ?_ b hb2
          intro c hc
          rcases List.mem_cons.mp hc with rfl | hc2
          · exact hblk
          · exact hl c (List.mem_cons_of_mem h hc2)

theorem insert_ok {hs : Nat} {blk : Nat × Nat} (hblk : blockOk hs blk)
    {l : List (Nat × Nat)} (hl : ∀ b ∈ l, blockOk hs b) :
    ∀ b ∈ insert_free_space blk l, blockOk hs b := by
  match l with
  | [] =>
    intro b hb
    simp only [insert_free_space, List.mem_singleton] at hb
    exact hb ▸ hblk
  | h :: rest =>
    simp only [insert_free_space]
    split
    · refine blockOk_coalescing ?_
      intro b hb
      rcases List.mem_cons.mp hb with rfl | hb2
      · exact hblk
      · exact hl b hb2
    · exact insert_walk_ok hblk hl

theorem insert_walk_covers (blk : Nat × Nat) :
    ∀ l : List (Nat × Nat), ∃ c ∈ insert_walk blk l,
      c.1 ≤ blk.1 ∧ blk.1 + blk.2 ≤ c.1 + c.2 ∧ blk.2 ≤ c.2 := by
  intro l
  induction l with
  | nil => exact ⟨blk, by simp [insert_walk], le_refl _, le_refl _, le_refl _⟩
  | cons h t ih =>
    cases t with
    | nil =>
      simp only [insert_walk]
      by_cases htouch : h.1 + h.2 + header_size = blk.1
      · rw [show coalescing (h :: [blk]) = [(h.1, h.2 + blk.2 + header_size)] from by
          simp [coalescing, htouch]]
        exact ⟨(h.1, h.2 + blk.2 + header_size), by simp,
          show h.1 ≤ blk.1 by omega,
          show blk.1 + blk.2 ≤ h.1 + (h.2 + blk.2 + header_size) by omega,
          show blk.2 ≤ h.2 + blk.2 + header_size by omega⟩
      · rw [show coalescing (h :: [blk]) = h :: [blk] from by simp [coalescing, htouch]]
        exact ⟨blk, by simp, le_refl _, le_refl _, le_refl _⟩
    | cons h2 rest =>
      simp only [insert_walk]
      split
      · obtain ⟨c, hc, hcov⟩ := ih
        exact ⟨c, List.mem_cons_of_mem h hc, hcov⟩
      · obtain ⟨c1, t1, he1, hcov1⟩ := coalescing_cons_covers blk (h2 :: rest)
        rw [he1]
        obtain ⟨hc1, hc2, hc3⟩ := hcov1
        by_cases htouch : h.1 + h.2 + header_size = c1.1
        · rw [show coalescing (h :: c1 :: t1) = (h.1, h.2 + c1.2 + header_size) :: t1 from by
            simp [coalescing, htouch]]
          exact ⟨(h.1, h.2 + c1.2 + header_size), by simp,
            show h.1 ≤ blk.1 by omega,
            show blk.1 + blk.2 ≤ h.1 + (h.2 + c1.2 + header_size) by omega,
            show blk.2 ≤ h.2 + c1.2 + header_size by omega⟩
        · rw [show coalescing (h :: c1 :: t1) = h :: c1 :: t1 from by
            simp [coalescing, htouch]]
          exact ⟨c1, by simp, hc1, hc2, hc3⟩

theorem insert_covers (blk : Nat × Nat) (l : List (Nat × Nat)) :
    ∃ c ∈ insert_free_space blk l,
      c.1 ≤ blk.1 ∧ blk.1 + blk.2 ≤ c.1 + c.2 ∧ blk.2 ≤ c.2 := by
  match l with
  | [] => exact ⟨blk, by simp [insert_free_space], le_refl _, le_refl _, le_refl _⟩
  | h :: rest =>
    simp only [insert_free_space]
    split
    · obtain ⟨c1, t1, he1, hcov1⟩ := coalescing_cons_covers blk (h :: rest)
      rw [he1]
      exact ⟨c1, by simp, hcov1⟩
    · exact insert_walk_covers blk (h :: rest)


/-! Behaviour of block splitting. -/

theorem shrink_cons_pos (x : Nat × Nat) (rest : List (Nat × Nat)) (size : Nat) :
    shrink_free (x :: rest) x size
      = ((x.1, size), (x.1 + size + header_size, x.2 - size - header_size) :: rest) := by
  simp [shrink_free]

theorem shrink_cons_neg {x t : Nat × Nat} (h : ¬ x = t)
    (rest : List (Nat × Nat)) (size : Nat) :
    shrink_free (x :: rest) t size
      = ((shrink_free rest t size).1, x :: (shrink_free rest t size).2) := by
  simp [shrink_free, h]

theorem shrink_fst (t : Nat × Nat) (size : Nat) :
    ∀ l : List (Nat × Nat), (shrink_free l t size).1 = (t.1, size) := by
  intro l
  induction l with
  | nil => rfl
  | cons b rest ih =>
    by_cases hbt : b = t
    · subst hbt
      rw [shrink_cons_pos]
    · rw [shrink_cons_neg hbt]
      exact ih

theorem shrink_split (t : Nat × Nat) (size : Nat) :
    ∀ l1 : List (Nat × Nat), t ∉ l1 → ∀ l2 : List (Nat × Nat),
      shrink_free (l1 ++ t :: l2) t size
        = ((t.1, size),
           l1 ++ (t.1 + size + header_size, t.2 - size - header_size) :: l2) := by
  intro l1
  induction l1 with
  | nil => intro _ l2; simpa using shrink_cons_pos t l2 size
  | cons b r ih =>
    intro hn l2
    have hbt : ¬ b = t := fun h => hn (h ▸ List.mem_cons_self b r)
    have hn2 : t ∉ r := fun h => hn (List.mem_cons_of_mem b h)
    rw [List.cons_append, shrink_cons_neg hbt, ih hn2 l2]
    simp

theorem shrink_sLen (t : Nat × Nat) (size : Nat)
    (hsz : size + header_size ≤ t.2) :
    ∀ {l : List (Nat × Nat)}, t ∈ l →
      sLen (shrink_free l t size).2 + size + header_size = sLen l := by
  intro l hm
  induction l with
  | nil => cases hm
  | cons b rest ih =>
    by_cases hbt : b = t
    · subst hbt
      rw [shrink_cons_pos]
      show sLen ((b.1 + size + header_size, b.2 - size - header_size) :: rest)
        + size + header_size = sLen (b :: rest)
      rw [sLen_cons, sLen_cons]
      omega
    · have hm2 : t ∈ rest := by
        rcases List.mem_cons.mp hm with h | h
        · exact absurd h.symm hbt
        · exact h
      rw [shrink_cons_neg hbt]
      show sLen (b :: (shrink_free rest t size).2) + size + header_size = sLen (b :: rest)
      rw [sLen_cons, sLen_cons]
      have := ih hm2
      omega

theorem shrink_ne (t : Nat × Nat) (size : Nat) {l : List (Nat × Nat)}
    (h : l ≠ []) : (shrink_free l t size).2 ≠ [] := by
  match l with
  | [] => exact absurd rfl h
  | b :: rest =>
    by_cases hbt : b = t
    · subst hbt
      rw [shrink_cons_pos]
      simp
    · rw [shrink_cons_neg hbt]
      simp

theorem shrink_ok {hs : Nat} (t : Nat × Nat) (size : Nat)
    (hsz : size + header_size ≤ t.2) (hmod : size % BYTE_BOUNDARY = 0) :
    ∀ {l : List (Nat × Nat)}, (∀ b ∈ l, blockOk hs b) →
      ∀ b ∈ (shrink_free l t size).2, blockOk hs b := by
  intro l
  induction l with
  | nil => intro _ b hb; cases hb
  | cons x rest ih =>
    intro hl
    by_cases hxt : x = t
    · subst hxt
      rw [shrink_cons_pos]
      show ∀ b ∈ (x.1 + size + header_size, x.2 - size - header_size) :: rest, blockOk hs b
      intro b hb
      rcases List.mem_cons.mp hb with rfl | hb2
      · have hx := hl x (by simp)
        simp only [blockOk, header_size, BYTE_BOUNDARY] at *
        omega
      · exact hl b (List.mem_cons_of_mem _ hb2)
    · rw [shrink_cons_neg hxt]
      show ∀ b ∈ x :: (shrink_free rest t size).2, blockOk hs b
      intro b hb
      rcases List.mem_cons.mp hb with rfl | hb2
      · exact hl b (by simp)
      · exact ih (fun c hc => hl c (List.mem_cons_of_mem x hc)) b hb2

theorem blockOk_alloc {hs : Nat} {t : Nat × Nat} {size : Nat}
    (ht : blockOk hs t) (hsz : size + header_size ≤ t.2)
    (hmod : size % BYTE_BOUNDARY = 0) : blockOk hs (t.1, size) := by
  simp only [blockOk, header_size, BYTE_BOUNDARY] at *
  omega

/-! Behaviour of the tail update in heap expansion. -/

theorem add_last_sLen (sz : Nat) :
    ∀ {l : List (Nat × Nat)}, l ≠ [] → sLen (add_last sz l) = sLen l + sz := by
  intro l h
  induction l with
  | nil => exact absurd rfl h
  | cons b rest ih =>
    cases rest with
    | nil =>
      show sLen [(b.1, b.2 + sz)] = sLen [b] + sz
      rw [sLen_cons, sLen_cons]
      omega
    | cons c r2 =>
      show sLen (b :: add_last sz (c :: r2)) = sLen (b :: c :: r2) + sz
      rw [sLen_cons, sLen_cons, ih (by simp)]
      omega

theorem add_last_ne (sz : Nat) {l : List (Nat × Nat)} (h : l ≠ []) :
    add_last sz l ≠ [] := by
  match l with
  | [] => exact absurd rfl h
  | [b] => simp [add_last]
  | b :: c :: r2 => simp [add_last]

theorem add_last_ok {hs sz : Nat} (hmod : sz % BYTE_BOUNDARY = 0) :
    ∀ {l : List (Nat × Nat)}, (∀ b ∈ l, blockOk hs b) →
      ∀ b ∈ add_last sz l, blockOk (hs + sz) b := by
  intro l
  induction l with
  | nil => intro _ b hb; cases hb
  | cons x rest ih =>
    intro hl
    cases rest with
    | nil =>
      intro b hb
      show blockOk (hs + sz) b
      have hb2 : b = (x.1, x.2 + sz) := by
        simpa [add_last] using hb
      subst hb2
      have hx := hl x (by simp)
      simp only [blockOk, header_size, BYTE_BOUNDARY] at *
      omega
    | cons c r2 =>
      intro b hb
      have hb2 : b = x ∨ b ∈ add_last sz (c :: r2) := by
        simpa [add_last] using hb
      rcases hb2 with rfl | hb3
      · exact blockOk_mono (Nat.le_add_right _ _) (hl b (by simp))
      · exact ih (fun d hd => hl d (List.mem_cons_of_mem x hd)) b hb3

/-! Preservation of the quiescent invariant by every operation. -/

theorem page_counter_mod (c : Nat) : PAGE_SIZE * c % BYTE_BOUNDARY = 0 := by
  have h : PAGE_SIZE * c = BYTE_BOUNDARY * (512 * c) := by
    simp only [PAGE_SIZE, BYTE_BOUNDARY]
    ring
  rw [h]
  exact Nat.mul_mod_right _ _

theorem inv_expand {ok : Bool} {s : AllocState} (h : Inv s) :
    Inv (expand_heap ok s).2 := by
  cases ok
  · exact ⟨h.ne, h.freeOk, h.usedOk, h.conserve⟩
  · have hfe : (expand_heap true s).2.freeL
        = add_last (PAGE_SIZE * s.expansion_counter) s.freeL := rfl
    have hue : (expand_heap true s).2.usedL = s.usedL := rfl
    have hhe : (expand_heap true s).2.heap_size
        = s.heap_size + PAGE_SIZE * s.expansion_counter := rfl
    refine ⟨?_, ?_, ?_, ?_⟩
    · rw [hfe]
      exact add_last_ne _ h.ne
    · rw [hfe, hhe]
      exact add_last_ok (page_counter_mod _) h.freeOk
    · rw [hue, hhe]
      intro b hb
      obtain ⟨hok, hend⟩ := h.usedOk b hb
      exact ⟨blockOk_mono (Nat.le_add_right _ _) hok, by omega⟩
    · rw [hfe, hue, hhe, add_last_sLen _ h.ne]
      have := h.conserve
      omega

theorem heap_size_expand {ok : Bool} {s : AllocState} :
    s.heap_size ≤ (expand_heap ok s).2.heap_size := by
  cases ok
  · exact le_refl _
  · have hhe : (expand_heap true s).2.heap_size
        = s.heap_size + PAGE_SIZE * s.expansion_counter := rfl
    omega

theorem find_cond {size : Nat} {l : List (Nat × Nat)} {b : Nat × Nat}
    (h : find_free_space size l = some b) :
    b ∈ l ∧ size + header_size ≤ b.2 := by
  have h2 : l.find? (fun x => decide (size + header_size ≤ x.2)) = some b := h
  have h3 := List.find?_some h2
  simp only [decide_eq_true_eq] at h3
  exact ⟨List.mem_of_find?_eq_some h2, h3⟩

theorem mymalloc_loop_succ_some {size fuel : Nat} {os : List Bool} {s : AllocState}
    {b : Nat × Nat} (hf : find_free_space size s.freeL = some b) :
    mymalloc_loop size (fuel + 1) os s
      = (some (b.1 + header_size),
         { s with freeL := (shrink_free s.freeL b size).2,
                  usedL := (shrink_free s.freeL b size).1 :: s.usedL }) := by
  simp only [mymalloc_loop, hf]

theorem mymalloc_loop_succ_none {size fuel : Nat} {os : List Bool} {s : AllocState}
    (hf : find_free_space size s.freeL = none) :
    mymalloc_loop size (fuel + 1) os s
      = (if (expand_heap (os.headD false) s).1 = 0
         then ((none : Option Nat), (expand_heap (os.headD false) s).2)
         else mymalloc_loop size fuel os.tail (expand_heap (os.headD false) s).2) := by
  simp only [mymalloc_loop, hf]

theorem inv_loop {size : Nat} (hmod : size % BYTE_BOUNDARY = 0) :
    ∀ (fuel : Nat) (os : List Bool) (s : AllocState), Inv s →
      Inv (mymalloc_loop size fuel os s).2 := by
  intro fuel
  induction fuel with
  | zero => intro os s h; exact h
  | succ n ih =>
    intro os s h
    cases hf : find_free_space size s.freeL with
    | some b =>
      obtain ⟨hmem, hsz⟩ := find_cond hf
      rw [mymalloc_loop_succ_some hf]
      refine ⟨shrink_ne _ _ h.ne, shrink_ok _ _ hsz hmod h.freeOk, ?_, ?_⟩
      · intro c hc
        have hc0 : c = (shrink_free s.freeL b size).1 ∨ c ∈ s.usedL := List.mem_cons.mp hc
        rcases hc0 with hc1 | hc2
        · rw [hc1, shrink_fst]
          obtain ⟨ha1, ha2, ha3, ha4⟩ := h.freeOk b hmem
          refine ⟨blockOk_alloc ⟨ha1, ha2, ha3, ha4⟩ hsz hmod, ?_⟩
          show b.1 + header_size + size + header_size ≤ heap_head + s.heap_size
          omega
        · exact h.usedOk c hc2
      · have h1 := shrink_sLen b size hsz hmem
        have h2 := h.conserve
        show sLen (shrink_free s.freeL b size).2
            + sLen ((shrink_free s.freeL b size).1 :: s.usedL) + free_list_size
          = s.heap_size
        rw [shrink_fst, sLen_cons]
        simp only [header_size] at *
        omega
    | none =>
      rw [mymalloc_loop_succ_none hf]
      by_cases hz : (expand_heap (os.headD false) s).1 = 0
      · rw [if_pos hz]
        exact inv_expand h
      · rw [if_neg hz]
        exact ih os.tail _ (inv_expand h)

theorem inv_mymalloc {fuel : Nat} {os : List Bool} {size : Nat} {s : AllocState}
    (h : Inv s) : Inv (mymalloc fuel os size s).2 := by
  simp only [mymalloc]
  split
  · exact h
  · exact inv_loop (roundUp_mod size) fuel os s h

theorem inv_myfree {p : Nat} {s : AllocState} (h : Inv s) :
    Inv (myfree p s).2 := by
  simp only [myfree]
  split
  · exact h
  · split
    · exact h
    · cases hf : s.usedL.find? (fun b => decide (b.1 + header_size = p)) with
      | none => exact h
      | some b =>
        have hmem := List.mem_of_find?_eq_some hf
        have hok := (h.usedOk b hmem).1
        refine ⟨insert_ne _ _, insert_ok hok h.freeOk, ?_, ?_⟩
        · intro c hc
          exact h.usedOk c (removeBlock_subset hc)
        · have h1 := sLen_insert b s.freeL
          have h2 := removeBlock_sLen hmem
          have h3 := h.conserve
          show sLen (insert_free_space b s.freeL) + sLen (removeBlock b s.usedL)
              + free_list_size = s.heap_size
          simp only [header_size] at *
          omega

theorem inv_reachable {s : AllocState} (h : Reachable s) : Inv s := by
  induction h with
  | init =>
    refine ⟨by simp [initState], ?_, ?_, ?_⟩
    · intro b hb
      simp only [initState, List.mem_singleton] at hb
      subst hb
      exact ⟨by decide, by decide, by decide, by decide⟩
    · intro b hb
      simp [initState] at hb
    · simp [initState, sLen, sumB, heap_head, free_list_size, PAGE_SIZE, header_size]
  | step_malloc fuel os size s _ ih => exact inv_mymalloc ih
  | step_free p s _ ih => exact inv_myfree ih

/-! Heap growth bookkeeping. -/

theorem expand_spec (s : AllocState) (ok : Bool) :
    (expand_heap ok s).2.expansion_counter = s.expansion_counter + 1 ∧
    (expand_heap ok s).1 = (if ok then PAGE_SIZE * s.expansion_counter else 0) ∧
    (expand_heap ok s).2.heap_size = s.heap_size + (expand_heap ok s).1 := by
  cases ok <;> exact ⟨rfl, rfl, rfl⟩

theorem loop_heap_mono (size : Nat) :
    ∀ (fuel : Nat) (os : List Bool) (s : AllocState),
      s.heap_size ≤ (mymalloc_loop size fuel os s).2.heap_size := by
  intro fuel
  induction fuel with
  | zero => intro os s; exact le_refl _
  | succ n ih =>
    intro os s
    cases hf : find_free_space size s.freeL with
    | some b =>
      rw [mymalloc_loop_succ_some hf]
    | none =>
      rw [mymalloc_loop_succ_none hf]
      by_cases hz : (expand_heap (os.headD false) s).1 = 0
      · rw [if_pos hz]
        exact heap_size_expand
      · rw [if_neg hz]
        exact le_trans heap_size_expand (ih os.tail _)

theorem mymalloc_heap_mono (fuel : Nat) (os : List Bool) (size : Nat) (s : AllocState) :
    s.heap_size ≤ (mymalloc fuel os size s).2.heap_size := by
  by_cases hz : size = 0
  · simp [mymalloc, hz]
  · have he : mymalloc fuel os size s = mymalloc_loop (roundUp size) fuel os s := by
      unfold mymalloc
      rw [if_neg hz]
    rw [he]
    exact loop_heap_mono (roundUp size) fuel os s

theorem myfree_heap_size (p : Nat) (s : AllocState) :
    (myfree p s).2.heap_size = s.heap_size := by
  unfold myfree
  split
  · rfl
  · split
    · rfl
    · cases hf : s.usedL.find? (fun b => decide (b.1 + header_size = p)) with
      | none => rfl
      | some b => rfl

theorem loop_alloc (size : Nat) :
    ∀ (fuel : Nat) (os : List Bool) (s : AllocState) (p : Nat), Inv s →
      (mymalloc_loop size fuel os s).1 = some p →
      p % BYTE_BOUNDARY = 0 ∧
      (p - header_size, size) ∈ (mymalloc_loop size fuel os s).2.usedL := by
  intro fuel
  induction fuel with
  | zero =>
    intro os s p _ hp
    exact absurd hp (by simp [mymalloc_loop])
  | succ n ih =>
    intro os s p h hp
    cases hf : find_free_space size s.freeL with
    | some b =>
      obtain ⟨hmem, hsz⟩ := find_cond hf
      rw [mymalloc_loop_succ_some hf] at hp ⊢
      have hpb : b.1 + header_size = p := by simpa using hp
      have haddr : b.1 % BYTE_BOUNDARY = 0 := (h.freeOk b hmem).2.1
      subst hpb
      constructor
      · simp only [header_size, BYTE_BOUNDARY] at *
        omega
      · have hsub : b.1 + header_size - header_size = b.1 := by omega
        rw [hsub]
        show (b.1, size) ∈ (shrink_free s.freeL b size).1 :: s.usedL
        rw [shrink_fst]
        exact List.mem_cons_self _ _
    | none =>
      rw [mymalloc_loop_succ_none hf] at hp ⊢
      by_cases hz : (expand_heap (os.headD false) s).1 = 0
      · rw [if_pos hz] at hp
        exact absurd hp (by simp)
      · rw [if_neg hz] at hp ⊢
        exact ih os.tail _ p (inv_expand h) hp

/-! Claim theorems. -/

/-- C1 (counterexample): the claim says a refused expansion performs no
state mutation, the expansion counter included; but calling expand_heap
on the freshly initialised state with the OS refusing leaves the counter
at 2 although it was 1 before the call. -/
theorem claim_C1_counterexample :
    (expand_heap false initState).1 = 0 ∧
    initState.expansion_counter = 1 ∧
    (expand_heap false initState).2.expansion_counter = 2 := by
  decide

/-- C1 (amended): when the OS refuses a growth request, expand_heap
returns the failure signal 0 and leaves the free list, every header, and
the total heap size exactly as they were; the expansion counter, however,
is still incremented (it is post-incremented before the sbrk test). -/
theorem claim_C1_amended (s : AllocState) :
    expand_heap false s
      = (0, { s with expansion_counter := s.expansion_counter + 1 }) := rfl

/-- C2 (counterexample): allocate 2000 twice from a fresh heap, free the
first pointer (4160): myfree succeeds and the span (header 4144, size
2000) sits on the free list, yet a subsequent equal-size request of 2000
cannot be satisfied from it — no free block passes the search condition
(the search demands size + header_size), so the retry expands the heap
and the allocation lands at 8192, outside the freed span. -/
theorem claim_C2_counterexample :
    (mymalloc 4 [] 2000 initState).1 = some 4160 ∧
    (mymalloc 4 [] 2000 (mymalloc 4 [] 2000 initState).2).1 = some 6176 ∧
    (myfree 4160 (mymalloc 4 [] 2000 (mymalloc 4 [] 2000 initState).2).2).1 = 0 ∧
    (4144, 2000) ∈
      (myfree 4160 (mymalloc 4 [] 2000 (mymalloc 4 [] 2000 initState).2).2).2.freeL ∧
    find_free_space (roundUp 2000)
      (myfree 4160 (mymalloc 4 [] 2000 (mymalloc 4 [] 2000 initState).2).2).2.freeL
      = none ∧
    (mymalloc 4 [true] 2000
      (myfree 4160 (mymalloc 4 [] 2000 (mymalloc 4 [] 2000 initState).2).2).2).1
      = some 8192 := by
  decide

/-- C2 (amended): freeing a pointer whose preceding header carries the
in-use marker always succeeds, and the freed span afterwards lies inside
a block of the free list at least as large as the span itself — so any
subsequent request of at most the span size minus one header size can be
served by that block; an equal-size request need not be servable from the
span, because the search reserves one header of slack. -/
theorem claim_C2_amended (s : AllocState) (p : Nat) (b : Nat × Nat) (hr : Reachable s)
    (hf : s.usedL.find? (fun x => decide (x.1 + header_size = p)) = some b) :
    (myfree p s).1 = 0 ∧
    ∃ c ∈ (myfree p s).2.freeL,
      c.1 ≤ b.1 ∧ b.1 + b.2 ≤ c.1 + c.2 ∧ b.2 ≤ c.2 := by
  have hinv := inv_reachable hr
  have hmem := List.mem_of_find?_eq_some hf
  have hpb : b.1 + header_size = p := by simpa using List.find?_some hf
  obtain ⟨⟨ha1, ha2, ha3, ha4⟩, hend⟩ := hinv.usedOk b hmem
  have hend16 : b.1 + 16 + b.2 + 16 ≤ heap_head + s.heap_size := by
    simpa [header_size] using hend
  have hpb16 : b.1 + 16 = p := by simpa [header_size] using hpb
  have h1 : ¬ p < heap_head := by omega
  have h2 : ¬ (heap_head + s.heap_size - 8 < p) := by omega
  have he : myfree p s
      = (0, { s with usedL := removeBlock b s.usedL, freeL := insert_free_space b s.freeL }) := by
    unfold myfree
    rw [if_neg h1, if_neg h2, hf]
  rw [he]
  exact ⟨rfl, insert_covers b s.freeL⟩

/-- C2 (witness): on the state after one allocation of 2000 from a fresh
heap, freeing the returned pointer 4160 succeeds and the span rejoins the
free list inside a covering block. -/
theorem claim_C2_witness :
    (myfree 4160 (mymalloc 4 [] 2000 initState).2).1 = 0 ∧
    ∃ c ∈ (myfree 4160 (mymalloc 4 [] 2000 initState).2).2.freeL,
      c.1 ≤ 4144 ∧ 4144 + 2000 ≤ c.1 + c.2 ∧ 2000 ≤ c.2 :=
  claim_C2_amended (mymalloc 4 [] 2000 initState).2 4160 (4144, 2000)
    (Reachable.step_malloc 4 [] 2000 initState Reachable.init) (by decide)

/-- C3: in every reachable state, myfree returns 1 exactly when the
pointer lies outside the interval of the specification or the header one
header-size before it does not carry the in-use marker, and a failing
call leaves the state untouched. The bounds test of the code (literal
heap_head + heap_size - 8) agrees with the half-open interval of the
specification on every reachable state, because a marker-carrying header
always has at least one boundary unit of payload inside the heap. -/
theorem claim_C3 {s : AllocState} {p : Nat} (hr : Reachable s) :
    ((myfree p s).1 = 1 ↔ claimed_free_check s p = true) ∧
    ((myfree p s).1 = 1 → (myfree p s).2 = s) := by
  have hinv := inv_reachable hr
  have hs8 : (8 : Nat) ≤ heap_head + s.heap_size := by
    simp only [heap_head]
    omega
  by_cases h1 : p < heap_head
  · constructor
    · simp [myfree, claimed_free_check, h1]
    · intro _
      simp [myfree, h1]
  · by_cases h2 : heap_head + s.heap_size - 8 < p
    · cases hf : s.usedL.find? (fun b => decide (b.1 + header_size = p)) with
      | none =>
        constructor
        · simp [myfree, claimed_free_check, h1, h2, hf]
        · intro _
          simp [myfree, h1, h2]
      | some b =>
        exfalso
        have hmem := List.mem_of_find?_eq_some hf
        have hpb : b.1 + header_size = p := by simpa using List.find?_some hf
        obtain ⟨⟨ha1, ha2, ha3, ha4⟩, hend⟩ := hinv.usedOk b hmem
        simp only [header_size, BYTE_BOUNDARY] at *
        omega
    · cases hf : s.usedL.find? (fun b => decide (b.1 + header_size = p)) with
      | none =>
        constructor
        · simp [myfree, claimed_free_check, h1, h2, hf]
        · intro _
          simp [myfree, h1, h2, hf]
      | some b =>
        have hne : ¬ (heap_head + s.heap_size ≤ p) := by omega
        constructor
        · simp [myfree, claimed_free_check, h1, h2, hf, hne]
        · intro hcontra
          simp [myfree, h1, h2, hf] at hcontra
  
/-- C3 (witness): the theorem applied to the freshly initialised state
and the null pointer. -/
theorem claim_C3_witness :
    (((myfree 0 initState).1 = 1 ↔ claimed_free_check initState 0 = true) ∧
      ((myfree 0 initState).1 = 1 → (myfree 0 initState).2 = initState)) :=
  claim_C3 Reachable.init

/-- C4 (counterexample): the claim says the counter increments only on
successful expansions and the k-th successful expansion grants 4096 by k;
but after one granted expansion (4096) and one refused attempt, the
counter stands at 3, and the second successful expansion grants 12288,
not 4096 times 2. -/
theorem claim_C4_counterexample :
    (expand_heap true initState).1 = PAGE_SIZE * 1 ∧
    (expand_heap false (expand_heap true initState).2).1 = 0 ∧
    (expand_heap false (expand_heap true initState).2).2.expansion_counter = 3 ∧
    (expand_heap true (expand_heap false (expand_heap true initState).2).2).1 = 12288 ∧
    ¬ 12288 = PAGE_SIZE * 2 := by
  decide

/-- C4 (amended): the expansion counter counts calls, not successes: it
starts at 1 and every expand_heap call requests exactly PAGE_SIZE times
the current counter and then increments it, granted or not; a granted
call adds exactly the requested amount to the total heap size, and the
total heap size is non-decreasing across every allocate and free
operation (so the k-th successful expansion grants 4096 by k only when no
attempt in between was refused). -/
theorem claim_C4_amended :
    (∀ (s : AllocState) (ok : Bool),
        (expand_heap ok s).2.expansion_counter = s.expansion_counter + 1 ∧
        (expand_heap ok s).1 = (if ok then PAGE_SIZE * s.expansion_counter else 0) ∧
        (expand_heap ok s).2.heap_size = s.heap_size + (expand_heap ok s).1) ∧
    (∀ (fuel : Nat) (os : List Bool) (size : Nat) (s : AllocState),
        s.heap_size ≤ (mymalloc fuel os size s).2.heap_size) ∧
    (∀ (p : Nat) (s : AllocState), (myfree p s).2.heap_size = s.heap_size) :=
  ⟨expand_spec, mymalloc_heap_mono, myfree_heap_size⟩

/-- C5 (counterexample): already at the freshly initialised state — a
reachable quiescent point — the sum of all block sizes plus one header
per block falls 48 bytes short of the total heap size: the claimed
conservation law omits the free_list descriptor embedded at the heap
base. -/
theorem claim_C5_counterexample :
    Reachable initState ∧
    ¬ (sumB initState.freeL + sumB initState.usedL
        + header_size * (initState.freeL.length + initState.usedL.length)
        = initState.heap_size) :=
  ⟨Reachable.init, by decide⟩

/-- C5 (amended): at every reachable quiescent point, the sum of all
allocated sizes plus the sum of all free sizes plus one header size per
block plus the size of the free_list descriptor (48 bytes, the list head
and lock living at the heap base) equals the total heap size. -/
theorem claim_C5_amended {s : AllocState} (hr : Reachable s) :
    sumB s.freeL + sumB s.usedL
      + header_size * (s.freeL.length + s.usedL.length) + free_list_size
      = s.heap_size := by
  have h := (inv_reachable hr).conserve
  simp only [sLen, header_size, free_list_size] at *
  omega

/-- C5 (witness): the amended conservation law evaluated at the freshly
initialised state. -/
theorem claim_C5_witness :
    sumB initState.freeL + sumB initState.usedL
      + header_size * (initState.freeL.length + initState.usedL.length) + free_list_size
      = initState.heap_size :=
  claim_C5_amended Reachable.init

/-- C6: shrink_free carves from the front: locating the target node in
the chain (first position carrying the pair, with no earlier occurrence),
the allocated header keeps the original address with size set to the
request, and the node at the original list position is replaced by a
header placed immediately after the allocated payload, with size equal to
the original size minus the request minus one header, inheriting the old
link; inside the allocation step the allocated header is the one linked
as in-use (consed onto the marked set) and the returned payload pointer
is one header past it. -/
theorem claim_C6 :
    (∀ (l1 l2 : List (Nat × Nat)) (t : Nat × Nat) (size : Nat), t ∉ l1 →
      shrink_free (l1 ++ t :: l2) t size
        = ((t.1, size),
           l1 ++ (t.1 + size + header_size, t.2 - size - header_size) :: l2)) ∧
    (∀ (s : AllocState) (fuel : Nat) (os : List Bool) (size : Nat) (b : Nat × Nat),
      find_free_space size s.freeL = some b →
      (mymalloc_loop size (fuel + 1) os s).1 = some (b.1 + header_size) ∧
      (mymalloc_loop size (fuel + 1) os s).2.usedL = (b.1, size) :: s.usedL) := by
  constructor
  · intro l1 l2 t size hn
    exact shrink_split t size l1 hn l2
  · intro s fuel os size b hf
    rw [mymalloc_loop_succ_some hf]
    refine ⟨rfl, ?_⟩
    show (shrink_free s.freeL b size).1 :: s.usedL = (b.1, size) :: s.usedL
    rw [shrink_fst]

/-- C6 (witness): splitting the single free block of the fresh heap for a
16-byte request: the allocated header is (4144, 16), the remainder header
(4176, 4000) takes over the head position, and the allocation step links
the allocated header as in-use and returns pointer 4160. -/
theorem claim_C6_witness :
    shrink_free [(4144, 4032)] (4144, 4032) 16
      = ((4144, 16), [(4176, 4000)]) ∧
    ((mymalloc_loop 16 1 [] initState).1 = some (4144 + header_size) ∧
      (mymalloc_loop 16 1 [] initState).2.usedL = [(4144, 16)]) :=
  ⟨claim_C6.1 [] [] (4144, 4032) 16 (by decide),
   claim_C6.2 initState 0 [] 16 (4144, 4032) (by decide)⟩

/-- C7: find_free_space scans the free list linearly from the head and
returns the first block whose size is at least the request plus one
header size; it returns none exactly when no block on the list satisfies
that condition. -/
theorem claim_C7 (size : Nat) (l : List (Nat × Nat)) :
    (∀ b, find_free_space size l = some b →
      size + header_size ≤ b.2 ∧
      ∃ l1 l2, l = l1 ++ b :: l2 ∧ ∀ c ∈ l1, c.2 < size + header_size) ∧
    (find_free_space size l = none ↔ ∀ b ∈ l, b.2 < size + header_size) := by
  induction l with
  | nil =>
    constructor
    · intro b hb
      exact absurd hb (by simp [find_free_space])
    · simp [find_free_space]
  | cons x rest ih =>
    by_cases hx : size + header_size ≤ x.2
    · have hfx : find_free_space size (x :: rest) = some x := by
        simp [find_free_space, hx]
      constructor
      · intro b hb
        rw [hfx] at hb
        injection hb with hb
        subst hb
        exact ⟨hx, [], rest, rfl, by simp⟩
      · rw [hfx]
        constructor
        · intro h
          exact absurd h (by simp)
        · intro hcond
          exact absurd hx (by have := hcond x (by simp); omega)
    · have hfx : find_free_space size (x :: rest) = find_free_space size rest := by
        simp [find_free_space, hx]
      constructor
      · intro b hb
        rw [hfx] at hb
        obtain ⟨hc, l1, l2, hsplit, hall⟩ := ih.1 b hb
        refine ⟨hc, x :: l1, l2, by rw [hsplit]; rfl, ?_⟩
        intro c hcmem
        rcases List.mem_cons.mp hcmem with rfl | hcm2
        · omega
        · exact hall c hcm2
      · rw [hfx, ih.2]
        constructor
        · intro hall b hb
          rcases List.mem_cons.mp hb with rfl | hb2
          · omega
          · exact hall b hb2
        · intro hall b hb
          exact hall b (List.mem_cons_of_mem x hb)

/-- C7 (witness): the theorem applied to the free list of the fresh heap
and an 8-byte request, yielding the head block with nothing before it. -/
theorem claim_C7_witness :
    8 + header_size ≤ 4032 ∧
    ∃ l1 l2, [((4144 : Nat), (4032 : Nat))] = l1 ++ (4144, 4032) :: l2 ∧
      ∀ c ∈ l1, c.2 < 8 + header_size :=
  (claim_C7 8 [(4144, 4032)]).1 (4144, 4032) (by decide)

/-- C8 (counterexample): the rounding of line 128 is unsigned int
arithmetic, so the request 4294967295 (which passed the zero check)
rounds to 0: on the fresh heap the call succeeds, returns the 8-aligned
pointer 4160, and records an in-use block of 0 usable bytes — not at
least the request rounded up to the next multiple of 8. -/
theorem claim_C8_counterexample :
    roundUp 4294967295 = 0 ∧
    (mymalloc 1 [] 4294967295 initState).1 = some 4160 ∧
    ((4144 : Nat), (0 : Nat)) ∈ (mymalloc 1 [] 4294967295 initState).2.usedL ∧
    ¬ (4294967295 : Nat) ≤ 0 := by
  decide

/-- C8 (amended): in every reachable state, a successful allocation of
size S returns an address on the 8-byte boundary and the allocated block
recorded as in-use one header before the returned address has usable
size exactly the rounded request of line 128; when S is at most
UINT_MOD - BYTE_BOUNDARY the unsigned rounding does not wrap and that
usable size is at least S rounded up to the next multiple of 8, while
for S in the open interval from UINT_MOD - BYTE_BOUNDARY to UINT_MOD
the rounded request wraps to 0 and the block carries 0 usable bytes. -/
theorem claim_C8_amended {s : AllocState} {fuel : Nat} {os : List Bool} {size p : Nat}
    (hr : Reachable s) (hp : (mymalloc fuel os size s).1 = some p) :
    p % BYTE_BOUNDARY = 0 ∧
    (p - header_size, roundUp size) ∈ (mymalloc fuel os size s).2.usedL ∧
    (size ≤ UINT_MOD - BYTE_BOUNDARY → size ≤ roundUp size) := by
  have hinv := inv_reachable hr
  by_cases hz : size = 0
  · exfalso
    subst hz
    simp [mymalloc] at hp
  · have he : mymalloc fuel os size s = mymalloc_loop (roundUp size) fuel os s := by
      unfold mymalloc
      rw [if_neg hz]
    rw [he] at hp ⊢
    obtain ⟨hmod8, hmem⟩ := loop_alloc (roundUp size) fuel os s p hinv hp
    exact ⟨hmod8, hmem, fun hnw => roundUp_le_of_no_wrap hnw⟩

/-- C8 (witness): allocating 10 bytes from the fresh heap returns 4160,
a multiple of 8, with the in-use block (4144, 16) of rounded size 16;
the request 10 is far below the wrap threshold. -/
theorem claim_C8_witness :
    4160 % BYTE_BOUNDARY = 0 ∧
    ((4160 : Nat) - header_size, roundUp 10) ∈ (mymalloc 1 [] 10 initState).2.usedL ∧
    ((10 : Nat) ≤ UINT_MOD - BYTE_BOUNDARY → (10 : Nat) ≤ roundUp 10) :=
  claim_C8_amended Reachable.init (by decide)

/-- C9 (counterexample): the straight-line trace of shared-state accesses
of myfree performs its two validation reads (the heap-size bound of line
172 and the marker read of line 181) before the lock acquisition of line
187, so not every shared access happens under the lock. -/
theorem claim_C9_counterexample : accessesLocked 0 myfree_actions = false := by
  decide

/-- C9 (amended): all shared accesses of mymalloc happen under the lock,
and all shared writes of myfree happen under the lock; but the two
validation reads of myfree (heap size for the bounds test, header link
for the marker test) are its first two actions and precede the lock
acquisition. -/
theorem claim_C9_amended :
    accessesLocked 0 mymalloc_actions = true ∧
    writesLocked 0 myfree_actions = true ∧
    myfree_actions.take 3
      = [MAct.rd SLoc.heapSz, MAct.rd SLoc.headerFld, MAct.lock] := by
  decide

/-- C10: in every reachable state the free list contains at least one
block — a split always leaves a remainder header on the list (possibly of
size 0), freeing only inserts or merges, and a granted expansion only
grows the tail node — so the list head is never null at a quiescent
point, which the unconditional tail walk of expand_heap relies on. -/
theorem claim_C10 {s : AllocState} (hr : Reachable s) : s.freeL ≠ [] :=
  (inv_reachable hr).ne

/-- C10 (witness): the non-emptiness applied to the freshly initialised
state. -/
theorem claim_C10_witness : initState.freeL ≠ [] :=
  claim_C10 Reachable.init

end MyMemory
